import Mathlib

/-
Verification of the bytes-rs buffering library: a shallow embedding of
`src/buffer.rs` (BufferVec, ExpandVec, WriteBuffer, IOError) and
`src/ring_vec.rs` (RingVec) in Lean 4, together with proofs of the
specified properties.

Modelling conventions:
* Bytes are `Nat` (their numeric value is irrelevant to the buffering logic).
* `Vec<u8>` / slices become `List Nat`; indices and sizes are `Nat`.
* `usize` arithmetic that can wrap in a release build is taken modulo
  `2 ^ 64` explicitly (see `USIZE`, `usizeSub`); everywhere else the code
  keeps its `usize` values far below `2 ^ 64`, so plain `Nat` is faithful.
* The external transport (`W: Write`) is modelled as a response script: each
  call to `write` consumes one scripted response, either `accept n` (the
  transport took `min n (len of the offered slice)` bytes; a conforming
  `Write` implementation never reports more than it was offered) or
  `fail k` (an `std::io` error of kind `k`).  An exhausted script answers
  with a WouldBlock error, so every finite transport behaviour is
  representable.  The writer also records the bytes it has accepted, in
  order, in `received`.
* `idle_instant` / `Instant` (wall-clock time) is elided: no verified claim
  mentions time.
-/

namespace BytesRs

/-- io error kinds relevant to the code (`std::io::ErrorKind` subset). -/
inductive ErrKind
  | wouldBlock
  | notConnected
  | unexpectedEof
  | brokenPipe
  | connectionAborted
  | otherKind
  deriving DecidableEq

/-- model of `enum IOError { WouldBlock, EOF { temporary }, Other(Error) }`. -/
inductive IOError
  | wouldBlock
  | eof (temporary : Bool)
  | other (k : ErrKind)
  deriving DecidableEq

/-- model of `impl From<Error> for IOError` (buffer.rs lines 201-212). -/
def classify (k : ErrKind) : IOError :=
  if k = .wouldBlock then .wouldBlock
  else if k = .unexpectedEof ∨ k = .brokenPipe ∨ k = .connectionAborted then .eof false
  else .other k

/-- one scripted response of the modelled transport. -/
inductive WResp
  | accept (n : Nat)
  | fail (k : ErrKind)
  deriving DecidableEq

/-- the modelled transport: the remaining response script plus the bytes it
has accepted so far, in order. -/
structure Writer where
  script : List WResp
  received : List Nat
  deriving DecidableEq

/-- model of `struct BufferVec { raw: Vec<u8>, size: usize }`. -/
structure BufferVec where
  raw : List Nat
  size : Nat
  deriving DecidableEq

namespace BufferVec

/-- model of `BufferVec::new(size)`: a zeroed region of `size` bytes, nothing filled. -/
def new (cap : Nat) : BufferVec :=
  ⟨List.replicate cap 0, 0⟩

/-- model of `BufferVec::len`. -/
def len (b : BufferVec) : Nat := b.size

/-- model of `BufferVec::cap` (= `raw.len()`). -/
def cap (b : BufferVec) : Nat := b.raw.length

/-- model of `BufferVec::read`: the filled region `raw[..size]`. -/
def read (b : BufferVec) : List Nat := b.raw.take b.size

/-- length of `BufferVec::write()`, the unfilled region `raw[size..]`. -/
def writeSpace (b : BufferVec) : Nat := b.raw.length - b.size

/-- model of `BufferVec::advance(n)`. -/
def advance (b : BufferVec) (n : Nat) : BufferVec :=
  { b with size := b.size + n }

/-- model of `BufferVec::rotate_left(n)`: `raw.rotate_left(n); size -= n`. -/
def rotate_left (b : BufferVec) (n : Nat) : BufferVec :=
  ⟨b.raw.drop n ++ b.raw.take n, b.size - n⟩

/-- model of `BufferVec::clear`. -/
def clear (b : BufferVec) : BufferVec := { b with size := 0 }

/-- model of `BufferVec::is_full` (= `raw[size..].len() == 0`). -/
def is_full (b : BufferVec) : Bool := b.raw.length - b.size == 0

/-- the slice-reassignment step of `BufferVec::copy_from`:
`if self.write().len() < buf.len() { buf = &buf[..self.write().len()]; }`. -/
def truncTo (b : BufferVec) (buf : List Nat) : List Nat :=
  if b.writeSpace < buf.length then buf.take b.writeSpace else buf

/-- model of `BufferVec::copy_from(buf)`: truncate `buf` to the unfilled space, copy it
in at offset `size`, advance, and return the number of bytes copied.
Returns the updated buffer together with the count. -/
def copy_from (b : BufferVec) (buf : List Nat) : BufferVec × Nat :=
  (⟨b.raw.take b.size ++ b.truncTo buf ++ b.raw.drop (b.size + (b.truncTo buf).length),
    b.size + (b.truncTo buf).length⟩, (b.truncTo buf).length)

/-- model of `BufferVec::from_slice(slice, cap)` = `new(cap)` followed by `copy_from`. -/
def from_slice (s : List Nat) (cap : Nat) : BufferVec :=
  ((new cap).copy_from s).1

/-- model of `BufferVec::from_vec(vec, cap)`: clamp `cap` up to `vec.len()`, then
`vec.resize(cap, 0)` with `size = vec.len()`. -/
def from_vec (v : List Nat) (cap : Nat) : BufferVec :=
  let c := if cap < v.length then v.length else cap
  ⟨v ++ List.replicate (c - v.length) 0, v.length⟩

/-- model of `BufferVec::move_to(target)`: `target.copy_from(self.read()); self.clear()`.
Returns `(self after, target after)`. -/
def move_to (b target : BufferVec) : BufferVec × BufferVec :=
  (b.clear, (target.copy_from b.read).1)

/-- well-formedness: the filled size never exceeds the allocation.  Every
`BufferVec` the Rust code can build satisfies this (Rust would panic
otherwise when slicing `raw[..size]`). -/
def WFb (b : BufferVec) : Prop := b.size ≤ b.raw.length

instance : DecidablePred WFb := fun b => Nat.decLe b.size b.raw.length

end BufferVec

/-- model of `struct ExpandVec<T> { raw: Vec<Vec<T>>, size: usize }` with
`T = u8`-like elements. -/
structure ExpandVec where
  raw : List (List Nat)
  size : Nat
  deriving DecidableEq

namespace ExpandVec

/-- model of `ExpandVec::new`. -/
def new : ExpandVec := ⟨[], 0⟩

/-- model of `ExpandVec::len` (returns the `size` field). -/
def len (v : ExpandVec) : Nat := v.size

/-- model of `ExpandVec::last_msg`. -/
def last_msg (v : ExpandVec) : Option (List Nat) := v.raw.getLast?

/-- model of `ExpandVec::pop`: `self.raw.pop()` — note the source does not touch
`size` here. -/
def pop (v : ExpandVec) : ExpandVec × Option (List Nat) :=
  (⟨v.raw.dropLast, v.size⟩, v.raw.getLast?)

/-- model of `ExpandVec::push(data)`: append a copy of `data`, `size += data.len()`. -/
def push (v : ExpandVec) (data : List Nat) : ExpandVec :=
  ⟨v.raw ++ [data], v.size + data.length⟩

/-- model of `ExpandVec::move_to(data)`: flatten all chunks onto `data` in push order
and reset to empty.  Returns `(self after, data after)`. -/
def move_to (v : ExpandVec) (data : List Nat) : ExpandVec × List Nat :=
  (⟨[], 0⟩, data ++ v.raw.flatten)

end ExpandVec

/-- the modulus `2 ^ 64` of `usize` on a 64-bit target. -/
def USIZE : Nat := 2 ^ 64

/-- wrapping `usize` subtraction (release-build semantics of `a - b`; a debug
build panics when `b > a`). -/
def usizeSub (a b : Nat) : Nat := (a + USIZE - b) % USIZE

/-- model of `struct RingVec<T> { inner: Vec<Option<T>>, start: usize,
end: usize }` (the `end` field is called `ending` because `end` is a Lean
keyword). -/
structure RingVec where
  inner : List (Option Nat)
  start : Nat
  ending : Nat
  deriving DecidableEq

namespace RingVec

/-- model of `RingVec::new(n)`. -/
def new (n : Nat) : RingVec := ⟨List.replicate n none, 0, 0⟩

/-- model of `RingVec::push(item)`: write at `end % len`, advance `end` mod `len`,
and bump `start` (an unbounded `usize` increment) when it collides with
`end`. -/
def push (r : RingVec) (item : Nat) : RingVec :=
  let len := r.inner.length
  let inner := r.inner.set (r.ending % len) (some item)
  let e := (r.ending + 1) % r.inner.length
  if r.start = e then ⟨inner, (r.start + 1) % USIZE, e⟩ else ⟨inner, r.start, e⟩

/-- model of `RingVec::get(idx)`: `len = end - start` (wrapping in release; a debug
build panics on underflow), then `inner[(idx + len) % inner.len()]`. -/
def get (r : RingVec) (idx : Nat) : Option Nat :=
  let len := usizeSub r.ending r.start
  if len ≤ idx then none
  else (r.inner.getD (((idx + len) % USIZE) % r.inner.length) none)

/-- model of `RingVec::contains(item)`: scan over every physical slot. -/
def contains (r : RingVec) (item : Nat) : Bool :=
  r.inner.any (fun n => n == some item)

end RingVec

/-- model of `struct WriteBuffer { cap: usize, buf: Vec<BufferVec>,
idle_instant: Instant }` (the timestamp is elided). -/
structure WriteBuffer where
  cap : Nat
  buf : List BufferVec
  deriving DecidableEq

namespace WriteBuffer

/-- model of `WriteBuffer::new(cap)`: one pre-allocated empty segment. -/
def new (cap : Nat) : WriteBuffer := ⟨cap, [BufferVec.new cap]⟩

/-- model of `WriteBuffer::buffered`: sum of the segment sizes. -/
def buffered (s : WriteBuffer) : Nat := (s.buf.map BufferVec.len).sum

/-- the byte content of the backlog, head segment first. -/
def backlogBytes (s : WriteBuffer) : List Nat := (s.buf.map BufferVec.read).flatten

/-- well-formedness of a `WriteBuffer`: every segment is well-formed. -/
def WF (s : WriteBuffer) : Prop := ∀ b ∈ s.buf, BufferVec.WFb b

instance : DecidablePred WF := fun s => List.decidableBAll _ s.buf

end WriteBuffer

/-- the loop body of `WriteBuffer::raw_write`: issue transport writes while
unsent data remains; a WouldBlock/NotConnected error stops the loop, returning
the partial count when some bytes were already written this call and the
`WouldBlock` error otherwise; any other error is classified and returned.
Arguments: remaining script, bytes received so far, unsent data, bytes written
so far in this call. -/
def rawWriteGo : List WResp → List Nat → List Nat → Nat → Except IOError Nat × Writer
  | script, recv, [], written => (.ok written, ⟨script, recv⟩)
  | [], recv, _ :: _, written =>
      if 0 < written then (.ok written, ⟨[], recv⟩)
      else (.error .wouldBlock, ⟨[], recv⟩)
  | .accept n :: rest, recv, b :: bs, written =>
      let k := min n (b :: bs).length
      rawWriteGo rest (recv ++ (b :: bs).take k) ((b :: bs).drop k) (written + k)
  | .fail k :: rest, recv, _ :: _, written =>
      if k = .wouldBlock ∨ k = .notConnected then
        if 0 < written then (.ok written, ⟨rest, recv⟩)
        else (.error .wouldBlock, ⟨rest, recv⟩)
      else (.error (classify k), ⟨rest, recv⟩)

/-- model of `WriteBuffer::raw_write(w, buf, _)` (the `Instant` argument is elided). -/
def rawWrite (w : Writer) (buf : List Nat) : Except IOError Nat × Writer :=
  rawWriteGo w.script w.received buf 0

/-- the `for buf in &mut self.buf` loop of `WriteBuffer::flush_buffer`:
fully written segments are rotated empty and the loop continues; a partial
write rotates by the written count and stops with WouldBlock; a raw-write
error stops with that error (without rotating). -/
def flushLoopGo : Writer → List BufferVec → Except IOError Unit × Writer × List BufferVec
  | w, [] => (.ok (), w, [])
  | w, seg :: rest =>
    match rawWrite w seg.read with
    | (.ok written, w') =>
      if written = seg.read.length then
        let r := flushLoopGo w' rest
        (r.1, r.2.1, seg.rotate_left written :: r.2.2)
      else (.error .wouldBlock, w', seg.rotate_left written :: rest)
    | (.error e, w') => (.error e, w', seg :: rest)

/-- model of `WriteBuffer::flush_buffer(writer)`: run the drain loop, then compact by
removing the now-empty segments from the head of the queue. -/
def WriteBuffer.flush_buffer (s : WriteBuffer) (w : Writer) :
    Except IOError Unit × Writer × WriteBuffer :=
  let r := flushLoopGo w s.buf
  (r.1, r.2.1, { s with buf := r.2.2.dropWhile (fun b => b.len == 0) })

/-- model of `WriteBuffer::copy_to_buffer(data)`: nothing to do for empty data; write
into the tail segment when it has strictly more room than `data`; otherwise
push a fresh segment of capacity `max(cap, data.len())` pre-filled with
`data`. -/
def WriteBuffer.copy_to_buffer (s : WriteBuffer) (data : List Nat) : WriteBuffer :=
  if data.length = 0 then s
  else
    match s.buf.getLast? with
    | some last =>
      if data.length < last.writeSpace then
        { s with
          buf := s.buf.dropLast ++
            [⟨last.raw.take last.size ++ data ++ last.raw.drop (last.size + data.length),
              last.size + data.length⟩] }
      else { s with buf := s.buf ++ [BufferVec.from_slice data (max s.cap data.length)] }
    | none => { s with buf := s.buf ++ [BufferVec.from_slice data (max s.cap data.length)] }

/-- model of `WriteBuffer::must_write(writer, data)`: flush the backlog (a WouldBlock
is absorbed as zero progress), then raw-write `data` (a WouldBlock again
counts as zero written), and finally buffer the unwritten suffix of `data`.
Other errors return immediately. -/
def WriteBuffer.must_write (s : WriteBuffer) (w : Writer) (data : List Nat) :
    Except IOError Unit × Writer × WriteBuffer :=
  match s.flush_buffer w with
  | (.ok _, w', s') =>
    match rawWrite w' data with
    | (.ok written, w'') => (.ok (), w'', s'.copy_to_buffer (data.drop written))
    | (.error .wouldBlock, w'') => (.ok (), w'', s'.copy_to_buffer data)
    | (.error e, w'') => (.error e, w'', s')
  | (.error .wouldBlock, w', s') => (.ok (), w', s'.copy_to_buffer data)
  | (.error e, w', s') => (.error e, w', s')

/-- the tail of `WriteBuffer::write` after the optional flush: raw-write
`data`, propagating any error, then buffer the unwritten suffix. -/
def WriteBuffer.writeTail (s : WriteBuffer) (w : Writer) (data : List Nat) :
    Except IOError Unit × Writer × WriteBuffer :=
  match rawWrite w data with
  | (.ok written, w') => (.ok (), w', s.copy_to_buffer (data.drop written))
  | (.error e, w') => (.error e, w', s)

/-- model of `WriteBuffer::write(writer, data)`: flush first only when the backlog is
non-empty, propagating a flush failure directly (dropping `data`). -/
def WriteBuffer.write (s : WriteBuffer) (w : Writer) (data : List Nat) :
    Except IOError Unit × Writer × WriteBuffer :=
  if 0 < s.buffered then
    match s.flush_buffer w with
    | (.ok _, w', s') => s'.writeTail w' data
    | (.error e, w', s') => (.error e, w', s')
  else s.writeTail w data

/-- the byte content of a segment list, head segment first. -/
def joinReads (l : List BufferVec) : List Nat := (l.map BufferVec.read).flatten

namespace BufferVec

theorem read_length {b : BufferVec} (h : WFb b) : b.read.length = b.size := by
  simpa [read] using h

theorem read_eq_nil_of_len_zero {b : BufferVec} (h : b.size = 0) : b.read = [] := by
  simp [read, h]

theorem rotate_raw_length (b : BufferVec) (n : Nat) :
    (b.rotate_left n).raw.length = b.raw.length := by
  simp [rotate_left]
  omega

theorem rotate_WF {b : BufferVec} (h : WFb b) (n : Nat) : WFb (b.rotate_left n) := by
  simp only [WFb, rotate_left] at h ⊢
  simp only [List.length_append, List.length_drop, List.length_take]
  omega

theorem rotate_size (b : BufferVec) (n : Nat) : (b.rotate_left n).size = b.size - n := rfl

theorem rotate_read {b : BufferVec} (h : WFb b) {n : Nat} (hn : n ≤ b.size) :
    (b.rotate_left n).read = b.read.drop n := by
  have h1 : (b.raw.drop n).length = b.raw.length - n := b.raw.length_drop n
  simp only [rotate_left, read, List.drop_take]
  rw [List.take_append_of_le_length (by simp [WFb] at h; omega)]

theorem truncTo_eq (b : BufferVec) (s : List Nat) :
    b.truncTo s = s.take (min b.writeSpace s.length) := by
  rw [truncTo]
  split
  next h => rw [Nat.min_eq_left (Nat.le_of_lt h)]
  next h => rw [Nat.min_eq_right (Nat.le_of_not_lt h), List.take_length]

theorem truncTo_length (b : BufferVec) (s : List Nat) :
    (b.truncTo s).length = min b.writeSpace s.length := by
  rw [truncTo_eq, List.length_take]
  omega

theorem copy_from_count {b : BufferVec} (s : List Nat) :
    (b.copy_from s).2 = min b.writeSpace s.length := truncTo_length b s

theorem copy_from_raw_length {b : BufferVec} (h : WFb b) (s : List Nat) :
    (b.copy_from s).1.raw.length = b.raw.length := by
  simp only [copy_from, truncTo_length, List.length_append, List.length_take,
    List.length_drop]
  simp only [WFb] at h
  simp only [writeSpace]
  omega

theorem copy_from_size (b : BufferVec) (s : List Nat) :
    (b.copy_from s).1.size = b.size + min b.writeSpace s.length := by
  simp only [copy_from, truncTo_length]

theorem copy_from_WF {b : BufferVec} (h : WFb b) (s : List Nat) : WFb ((b.copy_from s).1) := by
  simp only [WFb, copy_from_raw_length h, copy_from_size]
  simp only [WFb, writeSpace] at h ⊢
  omega

theorem copy_from_read {b : BufferVec} (h : WFb b) (s : List Nat) :
    (b.copy_from s).1.read = b.read ++ s.take (min b.writeSpace s.length) := by
  have hlen : (b.raw.take b.size ++ b.truncTo s).length = b.size + (b.truncTo s).length := by
    simp only [List.length_append, List.length_take]
    simp only [WFb] at h
    omega
  calc (b.copy_from s).1.read
      = ((b.raw.take b.size ++ b.truncTo s) ++
          b.raw.drop (b.size + (b.truncTo s).length)).take
            ((b.raw.take b.size ++ b.truncTo s).length) := by
        simp only [copy_from, read, List.append_assoc, hlen]
    _ = b.raw.take b.size ++ b.truncTo s := List.take_left _ _
    _ = b.read ++ s.take (min b.writeSpace s.length) := by rw [truncTo_eq, read]

theorem from_slice_cap (s : List Nat) (c : Nat) : (from_slice s c).raw.length = c := by
  rw [from_slice, copy_from_raw_length (by simp [WFb, new])]
  simp [new]

theorem from_slice_size (s : List Nat) (c : Nat) :
    (from_slice s c).size = min c s.length := by
  rw [from_slice, copy_from_size]
  simp [new, writeSpace]

theorem from_slice_read (s : List Nat) (c : Nat) :
    (from_slice s c).read = s.take (min c s.length) := by
  rw [from_slice, copy_from_read (by simp [WFb, new])]
  simp [new, read, writeSpace]

theorem from_slice_WF (s : List Nat) (c : Nat) : WFb (from_slice s c) := by
  rw [from_slice]
  exact copy_from_WF (by simp [WFb, new]) s

theorem from_slice_read_of_le {s : List Nat} {c : Nat} (h : s.length ≤ c) :
    (from_slice s c).read = s := by
  rw [from_slice_read, Nat.min_eq_right h, List.take_length]

end BufferVec

theorem classify_eq_wouldBlock_iff (k : ErrKind) : classify k = .wouldBlock ↔ k = .wouldBlock := by
  cases k <;> simp [classify]

theorem rawWriteGo_spec (script : List WResp) :
    ∀ (buf recv : List Nat) (written : Nat),
      ∃ n, n ≤ buf.length ∧
        (rawWriteGo script recv buf written).2.received = recv ++ buf.take n ∧
        (∀ m, (rawWriteGo script recv buf written).1 = .ok m → m = written + n) ∧
        ((rawWriteGo script recv buf written).1 = .error .wouldBlock →
          written = 0 ∧ n = 0) := by
  induction script with
  | nil =>
    intro buf recv written
    refine ⟨0, Nat.zero_le _, ?_, ?_, ?_⟩ <;> cases buf <;>
      simp [rawWriteGo] <;> split <;> simp_all
  | cons resp rest ih =>
    intro buf recv written
    cases buf with
    | nil => exact ⟨0, by simp [rawWriteGo]⟩
    | cons b bs =>
      cases resp with
      | accept a =>
        obtain ⟨n', hn', hrecv, hok, hwb⟩ :=
          ih ((b :: bs).drop (min a (b :: bs).length))
            (recv ++ (b :: bs).take (min a (b :: bs).length))
            (written + min a (b :: bs).length)
        have hk : min a (b :: bs).length ≤ (b :: bs).length := Nat.min_le_right _ _
        have hdl : ((b :: bs).drop (min a (b :: bs).length)).length
            = (b :: bs).length - min a (b :: bs).length := List.length_drop _ _
        refine ⟨min a (b :: bs).length + n', by omega, ?_, ?_, ?_⟩
        · show (rawWriteGo (.accept a :: rest) recv (b :: bs) written).2.received = _
          rw [show rawWriteGo (.accept a :: rest) recv (b :: bs) written
              = rawWriteGo rest (recv ++ (b :: bs).take (min a (b :: bs).length))
                  ((b :: bs).drop (min a (b :: bs).length))
                  (written + min a (b :: bs).length) from rfl]
          rw [hrecv, List.take_add, List.append_assoc]
        · intro m hm
          rw [show rawWriteGo (.accept a :: rest) recv (b :: bs) written
              = rawWriteGo rest (recv ++ (b :: bs).take (min a (b :: bs).length))
                  ((b :: bs).drop (min a (b :: bs).length))
                  (written + min a (b :: bs).length) from rfl] at hm
          have := hok m hm
          omega
        · intro hm
          rw [show rawWriteGo (.accept a :: rest) recv (b :: bs) written
              = rawWriteGo rest (recv ++ (b :: bs).take (min a (b :: bs).length))
                  ((b :: bs).drop (min a (b :: bs).length))
                  (written + min a (b :: bs).length) from rfl] at hm
          have := hwb hm
          omega
      | fail k =>
        refine ⟨0, Nat.zero_le _, ?_, ?_, ?_⟩ <;>
          · simp only [rawWriteGo]
            split
            · split <;> simp_all
            · simp_all [classify_eq_wouldBlock_iff]

theorem rawWrite_spec (w : Writer) (buf : List Nat) :
    ∃ n, n ≤ buf.length ∧
      (rawWrite w buf).2.received = w.received ++ buf.take n ∧
      (∀ m, (rawWrite w buf).1 = .ok m → m = n) ∧
      ((rawWrite w buf).1 = .error .wouldBlock → n = 0) := by
  obtain ⟨n, h1, h2, h3, h4⟩ := rawWriteGo_spec w.script buf w.received 0
  exact ⟨n, h1, h2, fun m hm => by simpa using h3 m hm, fun hm => (h4 hm).2⟩

theorem rawWrite_nil (w : Writer) : rawWrite w [] = (.ok 0, w) := by
  simp [rawWrite, rawWriteGo]

theorem joinReads_nil : joinReads [] = [] := rfl

theorem joinReads_cons (a : BufferVec) (l : List BufferVec) :
    joinReads (a :: l) = a.read ++ joinReads l := by
  simp [joinReads]

theorem joinReads_append (l₁ l₂ : List BufferVec) :
    joinReads (l₁ ++ l₂) = joinReads l₁ ++ joinReads l₂ := by
  simp [joinReads]

theorem joinReads_eq_nil_of_all_zero {l : List BufferVec} (h : ∀ b ∈ l, b.len = 0) :
    joinReads l = [] := by
  induction l with
  | nil => rfl
  | cons a t ih =>
    rw [joinReads_cons, ih (fun b hb => h b (List.mem_cons_of_mem a hb)),
      BufferVec.read_eq_nil_of_len_zero (h a (List.mem_cons_self a t))]
    rfl

theorem dropWhileEmpty_len_sum (l : List BufferVec) :
    (((l.dropWhile fun b => b.len == 0)).map BufferVec.len).sum
      = (l.map BufferVec.len).sum := by
  induction l with
  | nil => rfl
  | cons a t ih =>
    by_cases h : a.len = 0
    · rw [List.dropWhile_cons_of_pos (by simp [h])]
      simp [ih, h]
    · rw [List.dropWhile_cons_of_neg (by simp [h])]

theorem dropWhileEmpty_joinReads (l : List BufferVec) :
    joinReads (l.dropWhile fun b => b.len == 0) = joinReads l := by
  induction l with
  | nil => rfl
  | cons a t ih =>
    by_cases h : a.len = 0
    · rw [List.dropWhile_cons_of_pos (by simp [h])]
      rw [joinReads_cons, BufferVec.read_eq_nil_of_len_zero h, List.nil_append, ih]
    · rw [List.dropWhile_cons_of_neg (by simp [h])]

theorem dropWhileEmpty_head {l : List BufferVec} {b : BufferVec}
    (h : (l.dropWhile fun b => b.len == 0).head? = some b) : b.len ≠ 0 := by
  induction l with
  | nil => simp [List.dropWhile] at h
  | cons a t ih =>
    by_cases ha : a.len = 0
    · rw [List.dropWhile_cons_of_pos (by simp [ha])] at h
      exact ih h
    · rw [List.dropWhile_cons_of_neg (by simp [ha])] at h
      simp only [List.head?_cons, Option.some_inj] at h
      exact h ▸ ha

theorem dropWhileEmpty_eq_nil {l : List BufferVec} (h : ∀ b ∈ l, b.len = 0) :
    (l.dropWhile fun b => b.len == 0) = [] := by
  induction l with
  | nil => rfl
  | cons a t ih =>
    rw [List.dropWhile_cons_of_pos (by simp [h a (List.mem_cons_self a t)])]
    exact ih fun b hb => h b (List.mem_cons_of_mem a hb)

theorem dropWhileEmpty_WF {l : List BufferVec} (h : ∀ b ∈ l, BufferVec.WFb b) :
    ∀ b ∈ (l.dropWhile fun b => b.len == 0), BufferVec.WFb b :=
  fun b hb => h b ((List.dropWhile_sublist _).subset hb)

/-- master lemma for the segment-drain loop of `flush_buffer`: well-formedness
is preserved, the transmitted bytes are an in-order head of the backlog
content, a successful pass transmits everything and empties every segment,
the pass succeeds whenever nothing is left, and no byte is lost or duplicated
on success or WouldBlock. -/
theorem flushLoopGo_spec :
    ∀ (segs : List BufferVec) (w : Writer), (∀ b ∈ segs, BufferVec.WFb b) →
      (∀ b ∈ (flushLoopGo w segs).2.2, BufferVec.WFb b) ∧
      (∃ t, (flushLoopGo w segs).2.1.received = w.received ++ (joinReads segs).take t) ∧
      ((flushLoopGo w segs).1 = .ok () →
        (flushLoopGo w segs).2.1.received = w.received ++ joinReads segs ∧
        ∀ b ∈ (flushLoopGo w segs).2.2, b.len = 0) ∧
      ((((flushLoopGo w segs).2.2.map BufferVec.len).sum = 0) →
        (flushLoopGo w segs).1 = .ok ()) ∧
      (((flushLoopGo w segs).1 = .ok () ∨ (flushLoopGo w segs).1 = .error .wouldBlock) →
        (flushLoopGo w segs).2.1.received ++ joinReads (flushLoopGo w segs).2.2
          = w.received ++ joinReads segs) := by
  intro segs
  induction segs with
  | nil =>
    intro w _
    refine ⟨by simp [flushLoopGo], ⟨0, by simp [flushLoopGo, joinReads_nil]⟩, ?_, ?_, ?_⟩ <;>
      simp [flushLoopGo, joinReads_nil]
  | cons seg rest ih =>
    intro w hWF
    have hsegWF : BufferVec.WFb seg := hWF seg (List.mem_cons_self seg rest)
    have hrestWF : ∀ b ∈ rest, BufferVec.WFb b :=
      fun b hb => hWF b (List.mem_cons_of_mem seg hb)
    obtain ⟨n, hn, hrecv, hok, hwb⟩ := rawWrite_spec w seg.read
    rcases hr : rawWrite w seg.read with ⟨res, w0⟩
    rw [hr] at hrecv hok hwb
    simp only at hrecv hok hwb
    cases res with
    | ok written =>
      have hwn : written = n := hok written rfl
      subst hwn
      by_cases hfull : written = seg.read.length
      · -- fully written segment: rotate it empty and continue with the rest
        have hrf : flushLoopGo w (seg :: rest) =
            ((flushLoopGo w0 rest).1, (flushLoopGo w0 rest).2.1,
              seg.rotate_left written :: (flushLoopGo w0 rest).2.2) := by
          simp [flushLoopGo, hr, hfull]
        have htake : seg.read.take written = seg.read := by
          rw [hfull, List.take_length]
        have hsz : written = seg.size := by
          rw [hfull, BufferVec.read_length hsegWF]
        have hrot0 : (seg.rotate_left written).len = 0 := by
          simp [BufferVec.rotate_size, BufferVec.len, hsz]
        have hrotread : (seg.rotate_left written).read = [] :=
          BufferVec.read_eq_nil_of_len_zero hrot0
        obtain ⟨ihwf, ⟨t', ihpref⟩, ihok, ihsum, ihnoloss⟩ := ih w0 hrestWF
        rw [hrecv, htake] at ihpref ihok ihnoloss
        refine ⟨?_, ?_, ?_, ?_, ?_⟩
        · rw [hrf]
          intro b hb
          rcases List.mem_cons.1 hb with hb | hb
          · exact hb ▸ BufferVec.rotate_WF hsegWF written
          · exact ihwf b hb
        · refine ⟨seg.read.length + t', ?_⟩
          rw [hrf]
          simp only
          rw [ihpref, joinReads_cons, List.take_append, List.append_assoc]
        · intro hres
          rw [hrf] at hres ⊢
          simp only at hres ⊢
          obtain ⟨h1, h2⟩ := ihok hres
          refine ⟨by rw [h1, joinReads_cons, List.append_assoc], ?_⟩
          intro b hb
          rcases List.mem_cons.1 hb with hb | hb
          · exact hb ▸ hrot0
          · exact h2 b hb
        · intro hsum0
          rw [hrf] at hsum0 ⊢
          simp only [List.map_cons, List.sum_cons, hrot0] at hsum0 ⊢
          exact ihsum (by omega)
        · intro hres
          rw [hrf] at hres ⊢
          simp only at hres ⊢
          rw [joinReads_cons, hrotread, List.nil_append, joinReads_cons,
            ihnoloss hres, List.append_assoc]
      · -- partially written segment: rotate and stop with WouldBlock
        have hrf : flushLoopGo w (seg :: rest) =
            (.error .wouldBlock, w0, seg.rotate_left written :: rest) := by
          simp [flushLoopGo, hr, hfull]
        have hlt : written < seg.read.length := Nat.lt_of_le_of_ne hn hfull
        have hltsz : written < seg.size := by
          rwa [BufferVec.read_length hsegWF] at hlt
        refine ⟨?_, ?_, ?_, ?_, ?_⟩
        · rw [hrf]
          intro b hb
          rcases List.mem_cons.1 hb with hb | hb
          · exact hb ▸ BufferVec.rotate_WF hsegWF written
          · exact hrestWF b hb
        · refine ⟨written, ?_⟩
          rw [hrf]
          simp only
          rw [hrecv, joinReads_cons, List.take_append_of_le_length hn]
        · intro hres
          rw [hrf] at hres
          simp at hres
        · intro hsum0
          rw [hrf] at hsum0
          simp only [List.map_cons, List.sum_cons, BufferVec.rotate_size,
            BufferVec.len] at hsum0
          omega
        · intro _
          rw [hrf]
          simp only
          rw [joinReads_cons, BufferVec.rotate_read hsegWF (Nat.le_of_lt hltsz), hrecv,
            joinReads_cons, List.append_assoc, ← List.append_assoc (seg.read.take written),
            List.take_append_drop]
    | error e =>
      have hrf : flushLoopGo w (seg :: rest) = (.error e, w0, seg :: rest) := by
        simp [flushLoopGo, hr]
      have hne : seg.read ≠ [] := by
        intro h0
        rw [h0, rawWrite_nil] at hr
        simp at hr
      have hsize : seg.size ≠ 0 := fun h0 => hne (by simp [BufferVec.read, h0])
      refine ⟨?_, ?_, ?_, ?_, ?_⟩
      · rw [hrf]
        exact hWF
      · refine ⟨n, ?_⟩
        rw [hrf]
        simp only
        rw [hrecv, joinReads_cons, List.take_append_of_le_length hn]
      · intro hres
        rw [hrf] at hres
        simp at hres
      · intro hsum0
        rw [hrf] at hsum0
        simp only [List.map_cons, List.sum_cons, BufferVec.len] at hsum0
        omega
      · intro hres
        rw [hrf] at hres
        simp only at hres
        have he : e = .wouldBlock := by
          rcases hres with h | h
          · exact absurd h (by simp)
          · simpa using h
        have hn0 : n = 0 := hwb (by rw [he])
        rw [hrf]
        simp only
        rw [hrecv, hn0, List.take_zero, List.append_nil]

/-- properties of `flush_buffer`: well-formedness and the per-segment capacity
are preserved, the transmitted bytes are an in-order head of the backlog, the
call succeeds exactly when the whole backlog was drained (in which case the
queue is left empty and everything was transmitted in order), the compacted
queue has no leading empty segment, and no byte is lost or duplicated on
success or WouldBlock. -/
theorem flush_buffer_spec (s : WriteBuffer) (w : Writer) (hWF : s.WF) :
    (s.flush_buffer w).2.2.WF ∧
    (s.flush_buffer w).2.2.cap = s.cap ∧
    (∃ t, (s.flush_buffer w).2.1.received = w.received ++ s.backlogBytes.take t) ∧
    ((s.flush_buffer w).1 = .ok () ↔ (s.flush_buffer w).2.2.buffered = 0) ∧
    ((s.flush_buffer w).1 = .ok () →
      (s.flush_buffer w).2.1.received = w.received ++ s.backlogBytes ∧
      (s.flush_buffer w).2.2.buf = []) ∧
    (∀ b, (s.flush_buffer w).2.2.buf.head? = some b → b.len ≠ 0) ∧
    (((s.flush_buffer w).1 = .ok () ∨ (s.flush_buffer w).1 = .error .wouldBlock) →
      (s.flush_buffer w).2.1.received ++ (s.flush_buffer w).2.2.backlogBytes
        = w.received ++ s.backlogBytes) := by
  obtain ⟨mwf, ⟨t, mpref⟩, mok, msum, mnoloss⟩ := flushLoopGo_spec s.buf w hWF
  have hfb : s.flush_buffer w =
      ((flushLoopGo w s.buf).1, (flushLoopGo w s.buf).2.1,
        ⟨s.cap, (flushLoopGo w s.buf).2.2.dropWhile (fun b => b.len == 0)⟩) := rfl
  have hjoin : (s.backlogBytes) = joinReads s.buf := rfl
  refine ⟨?_, ?_, ?_, ?_, ?_, ?_, ?_⟩
  · rw [hfb]
    exact dropWhileEmpty_WF mwf
  · rw [hfb]
  · exact ⟨t, by rw [hfb, hjoin]; exact mpref⟩
  · rw [hfb]
    simp only [WriteBuffer.buffered]
    rw [dropWhileEmpty_len_sum]
    constructor
    · intro h
      obtain ⟨-, h2⟩ := mok h
      have : ∀ b ∈ (flushLoopGo w s.buf).2.2, b.len = 0 := h2
      simp only [List.sum_eq_zero_iff, List.mem_map]
      rintro x ⟨b, hb, rfl⟩
      exact this b hb
    · exact msum
  · intro h
    rw [hfb] at h ⊢
    simp only at h ⊢
    obtain ⟨h1, h2⟩ := mok h
    exact ⟨by rw [hjoin]; exact h1, dropWhileEmpty_eq_nil h2⟩
  · intro b hb
    rw [hfb] at hb
    simp only at hb
    exact dropWhileEmpty_head hb
  · intro h
    rw [hfb] at h ⊢
    simp only at h ⊢
    show (flushLoopGo w s.buf).2.1.received ++
        joinReads ((flushLoopGo w s.buf).2.2.dropWhile fun b => b.len == 0) = _
    rw [dropWhileEmpty_joinReads, hjoin]
    exact mnoloss h

theorem joinReads_singleton (b : BufferVec) : joinReads [b] = b.read := by
  simp [joinReads]

theorem push_seg_spec (s : WriteBuffer) (data : List Nat) (hWF : s.WF) :
    (∀ b ∈ s.buf ++ [BufferVec.from_slice data (max s.cap data.length)], BufferVec.WFb b) ∧
    joinReads (s.buf ++ [BufferVec.from_slice data (max s.cap data.length)])
      = joinReads s.buf ++ data := by
  constructor
  · intro b hb
    rcases List.mem_append.1 hb with hb | hb
    · exact hWF b hb
    · rw [List.mem_singleton.1 hb]
      exact BufferVec.from_slice_WF data _
  · rw [joinReads_append, joinReads_singleton,
      BufferVec.from_slice_read_of_le (Nat.le_max_right _ _)]

/-- properties of `copy_to_buffer`: well-formedness and the per-segment
capacity are preserved, and the backlog content grows by exactly `data`,
appended at the tail. -/
theorem copy_to_buffer_spec (s : WriteBuffer) (data : List Nat) (hWF : s.WF) :
    (s.copy_to_buffer data).WF ∧
    (s.copy_to_buffer data).cap = s.cap ∧
    (s.copy_to_buffer data).backlogBytes = s.backlogBytes ++ data := by
  rw [WriteBuffer.copy_to_buffer]
  split
  next hlen =>
    have hnil : data = [] := List.length_eq_zero.1 hlen
    subst hnil
    exact ⟨hWF, rfl, by simp⟩
  next hlen =>
    split
    next last hlast =>
      obtain ⟨init, hinit⟩ := List.getLast?_eq_some_iff.1 hlast
      have hlastWF : BufferVec.WFb last := hWF last (by rw [hinit]; simp)
      split
      next hfit =>
        have htr : last.truncTo data = data := by
          rw [BufferVec.truncTo]
          split
          next h => omega
          next => rfl
        have hseg : (⟨last.raw.take last.size ++ data ++
            last.raw.drop (last.size + data.length), last.size + data.length⟩ : BufferVec)
            = (last.copy_from data).1 := by
          simp [BufferVec.copy_from, htr]
        have hdl : s.buf.dropLast = init := by rw [hinit]; simp
        have hcread : (last.copy_from data).1.read = last.read ++ data := by
          rw [BufferVec.copy_from_read hlastWF,
            Nat.min_eq_right (Nat.le_of_lt hfit), List.take_length]
        refine ⟨?_, rfl, ?_⟩
        · intro b hb
          simp only [hseg, hdl] at hb
          rcases List.mem_append.1 hb with hb | hb
          · exact hWF b (by rw [hinit]; exact List.mem_append_left _ hb)
          · rw [List.mem_singleton.1 hb]
            exact BufferVec.copy_from_WF hlastWF data
        · show joinReads _ = joinReads s.buf ++ data
          simp only [hseg, hdl]
          rw [joinReads_append, joinReads_singleton, hcread, hinit,
            joinReads_append, joinReads_singleton, List.append_assoc]
      next hfit =>
        obtain ⟨h1, h2⟩ := push_seg_spec s data hWF
        exact ⟨h1, rfl, h2⟩
    next hlast =>
      obtain ⟨h1, h2⟩ := push_seg_spec s data hWF
      exact ⟨h1, rfl, h2⟩

/-- no-loss accounting for `must_write`: on success, the writer's received
bytes followed by the remaining backlog equal the old received bytes, the old
backlog and `data`, in that order. -/
theorem must_write_no_loss (s : WriteBuffer) (w : Writer) (data : List Nat) (hWF : s.WF)
    (hok : (s.must_write w data).1 = .ok ()) :
    (s.must_write w data).2.2.WF ∧
    (s.must_write w data).2.1.received ++ (s.must_write w data).2.2.backlogBytes
      = w.received ++ s.backlogBytes ++ data := by
  obtain ⟨fwf, fcap, fpref, fiff, fok, fhead, fnoloss⟩ := flush_buffer_spec s w hWF
  rcases hfl : s.flush_buffer w with ⟨fres, w1, s1⟩
  rw [hfl] at fwf fcap fpref fiff fok fhead fnoloss
  simp only at fwf fcap fpref fiff fok fhead fnoloss
  cases fres with
  | ok u =>
    cases u
    obtain ⟨frecv, fnil⟩ := fok rfl
    have hs1bb : s1.backlogBytes = [] := by
      show joinReads s1.buf = []
      rw [fnil, joinReads_nil]
    obtain ⟨n, hn, hrecv, hokm, hwb⟩ := rawWrite_spec w1 data
    rcases hrw : rawWrite w1 data with ⟨rres, w2⟩
    rw [hrw] at hrecv hokm hwb
    simp only at hrecv hokm hwb
    cases rres with
    | ok written =>
      have hwn : written = n := hokm written rfl
      subst hwn
      have hmv : s.must_write w data = (.ok (), w2, s1.copy_to_buffer (data.drop written)) := by
        simp [WriteBuffer.must_write, hfl, hrw]
      obtain ⟨cwf, _, cbb⟩ := copy_to_buffer_spec s1 (data.drop written) fwf
      rw [hmv]
      refine ⟨cwf, ?_⟩
      simp only
      rw [cbb, hs1bb, List.nil_append, hrecv, frecv, List.append_assoc,
        List.append_assoc, List.take_append_drop, ← List.append_assoc]
    | error e =>
      cases e with
      | wouldBlock =>
        have hn0 : n = 0 := hwb rfl
        have hmv : s.must_write w data = (.ok (), w2, s1.copy_to_buffer data) := by
          simp [WriteBuffer.must_write, hfl, hrw]
        obtain ⟨cwf, _, cbb⟩ := copy_to_buffer_spec s1 data fwf
        rw [hmv]
        refine ⟨cwf, ?_⟩
        simp only
        rw [cbb, hs1bb, List.nil_append, hrecv, hn0, List.take_zero, List.append_nil,
          frecv, List.append_assoc]
      | eof t =>
        have : (s.must_write w data).1 = .error (.eof t) := by
          simp [WriteBuffer.must_write, hfl, hrw]
        rw [this] at hok
        exact absurd hok (by simp)
      | other k =>
        have : (s.must_write w data).1 = .error (.other k) := by
          simp [WriteBuffer.must_write, hfl, hrw]
        rw [this] at hok
        exact absurd hok (by simp)
  | error e =>
    cases e with
    | wouldBlock =>
      have hmv : s.must_write w data = (.ok (), w1, s1.copy_to_buffer data) := by
        simp [WriteBuffer.must_write, hfl]
      obtain ⟨cwf, _, cbb⟩ := copy_to_buffer_spec s1 data fwf
      rw [hmv]
      refine ⟨cwf, ?_⟩
      simp only
      rw [cbb, ← List.append_assoc, fnoloss (Or.inr rfl)]
    | eof t =>
      have : (s.must_write w data).1 = .error (.eof t) := by
        simp [WriteBuffer.must_write, hfl]
      rw [this] at hok
      exact absurd hok (by simp)
    | other k =>
      have : (s.must_write w data).1 = .error (.other k) := by
        simp [WriteBuffer.must_write, hfl]
      rw [this] at hok
      exact absurd hok (by simp)

theorem flush_buffer_new (cap : Nat) (w : Writer) :
    (WriteBuffer.new cap).flush_buffer w = (.ok (), w, ⟨cap, []⟩) := by
  have h1 : (BufferVec.new cap).read = [] := by simp [BufferVec.read, BufferVec.new]
  have h2 : flushLoopGo w [BufferVec.new cap]
      = (.ok (), w, [(BufferVec.new cap).rotate_left 0]) := by
    simp [flushLoopGo, h1, rawWrite_nil]
  have h3 : ((BufferVec.new cap).rotate_left 0).len = 0 := rfl
  have hfb : (WriteBuffer.new cap).flush_buffer w =
      ((flushLoopGo w [BufferVec.new cap]).1, (flushLoopGo w [BufferVec.new cap]).2.1,
        ⟨cap, (flushLoopGo w [BufferVec.new cap]).2.2.dropWhile (fun b => b.len == 0)⟩) :=
    rfl
  rw [hfb, h2]
  rfl

theorem rawWrite_accept_lt {p : Nat} {data : List Nat} (recv : List Nat)
    (hp : p < data.length) :
    rawWriteGo [.accept p] recv data 0 =
      if 0 < p then (.ok p, ⟨[], recv ++ data.take p⟩)
      else (.error .wouldBlock, ⟨[], recv⟩) := by
  cases data with
  | nil => simp at hp
  | cons d ds =>
    have hmin : min p (ds.length + 1) = p := by
      simp only [List.length_cons] at hp
      omega
    have hcons : rawWriteGo [.accept p] recv (d :: ds) 0
        = rawWriteGo [] (recv ++ (d :: ds).take p) ((d :: ds).drop p) p := by
      simp [rawWriteGo, hmin]
    rw [hcons]
    rcases hd : (d :: ds).drop p with _ | ⟨x, xs⟩
    · have := congrArg List.length hd
      simp only [List.length_drop, List.length_nil, List.length_cons] at this
      simp only [List.length_cons] at hp
      omega
    · split
      next hpos => simp [rawWriteGo, hpos]
      next hpos =>
        have hp0 : p = 0 := by omega
        subst hp0
        simp [rawWriteGo]

theorem rawWrite_accept_all {N : Nat} {buf : List Nat} (recv : List Nat)
    (hN : buf.length ≤ N) (hne : buf ≠ []) :
    rawWriteGo [.accept N] recv buf 0 = (.ok buf.length, ⟨[], recv ++ buf⟩) := by
  cases buf with
  | nil => exact absurd rfl hne
  | cons d ds =>
    have hmin : min N (ds.length + 1) = ds.length + 1 := by
      simp only [List.length_cons] at hN
      omega
    have hcons : rawWriteGo [.accept N] recv (d :: ds) 0
        = rawWriteGo [] (recv ++ (d :: ds).take (ds.length + 1))
            ((d :: ds).drop (ds.length + 1)) (ds.length + 1) := by
      simp [rawWriteGo, hmin]
    have hlen : (d :: ds).length = ds.length + 1 := rfl
    rw [hcons, ← hlen, List.take_length, List.drop_length]
    rfl

theorem copy_to_buffer_emptyQueue (cap : Nat) (rem : List Nat) (h : rem ≠ []) :
    (⟨cap, []⟩ : WriteBuffer).copy_to_buffer rem
      = ⟨cap, [BufferVec.from_slice rem (max cap rem.length)]⟩ := by
  rw [WriteBuffer.copy_to_buffer, if_neg (by simpa using h)]
  rfl

theorem buffered_single (cap : Nat) (b : BufferVec) :
    (⟨cap, [b]⟩ : WriteBuffer).buffered = b.size := by
  simp [WriteBuffer.buffered, BufferVec.len]

theorem flush_single_seg (cap c N : Nat) (rem : List Nat) (hne : rem ≠ [])
    (hc : rem.length ≤ c) (hN : rem.length ≤ N) :
    (⟨cap, [BufferVec.from_slice rem c]⟩ : WriteBuffer).flush_buffer ⟨[.accept N], []⟩
      = (.ok (), ⟨[], rem⟩, ⟨cap, []⟩) := by
  have hread : (BufferVec.from_slice rem c).read = rem :=
    BufferVec.from_slice_read_of_le hc
  have hsize : (BufferVec.from_slice rem c).size = rem.length := by
    rw [BufferVec.from_slice_size, Nat.min_eq_right hc]
  have hr2 : rawWrite (⟨[.accept N], []⟩ : Writer) rem = (.ok rem.length, ⟨[], rem⟩) := by
    rw [rawWrite]
    simpa using rawWrite_accept_all [] hN hne
  have hloop : flushLoopGo ⟨[.accept N], []⟩ [BufferVec.from_slice rem c]
      = (.ok (), ⟨[], rem⟩, [(BufferVec.from_slice rem c).rotate_left rem.length]) := by
    simp [flushLoopGo, hread, hr2]
  have hrot0 : ((BufferVec.from_slice rem c).rotate_left rem.length).len = 0 := by
    simp [BufferVec.rotate_size, BufferVec.len, hsize]
  have hfb : (⟨cap, [BufferVec.from_slice rem c]⟩ : WriteBuffer).flush_buffer
        ⟨[.accept N], []⟩ =
      ((flushLoopGo ⟨[.accept N], []⟩ [BufferVec.from_slice rem c]).1,
        (flushLoopGo ⟨[.accept N], []⟩ [BufferVec.from_slice rem c]).2.1,
        ⟨cap, (flushLoopGo ⟨[.accept N], []⟩
          [BufferVec.from_slice rem c]).2.2.dropWhile (fun b => b.len == 0)⟩) := rfl
  have hdw : List.dropWhile (fun b => b.len == 0)
      [(BufferVec.from_slice rem c).rotate_left rem.length] = [] := by
    simp [List.dropWhile_cons, hrot0]
  rw [hfb, hloop]
  simp only [hdw]

/-- the partial-write scenario of spec section 8: from a fresh `WriteBuffer`,
a transport that accepts exactly `p < data.len()` bytes and then blocks makes
`must_write` succeed with the accepted head delivered and the unaccepted tail
buffered; a subsequent `flush_buffer` against a fully-accepting transport
delivers the tail in order and drains the backlog to zero. -/
theorem must_write_scenario (cap : Nat) (data : List Nat) (p : Nat) (hp : p < data.length) :
    ((WriteBuffer.new cap).must_write ⟨[.accept p], []⟩ data).1 = .ok () ∧
    ((WriteBuffer.new cap).must_write ⟨[.accept p], []⟩ data).2.1.received = data.take p ∧
    ((WriteBuffer.new cap).must_write ⟨[.accept p], []⟩ data).2.2.buffered
      = data.length - p ∧
    ((((WriteBuffer.new cap).must_write ⟨[.accept p], []⟩ data).2.2.flush_buffer
        ⟨[.accept data.length], []⟩).1 = .ok ()) ∧
    ((((WriteBuffer.new cap).must_write ⟨[.accept p], []⟩ data).2.2.flush_buffer
        ⟨[.accept data.length], []⟩).2.2.buffered = 0) ∧
    ((((WriteBuffer.new cap).must_write ⟨[.accept p], []⟩ data).2.2.flush_buffer
        ⟨[.accept data.length], []⟩).2.1.received = data.drop p) := by
  have hrw : rawWrite (⟨[.accept p], []⟩ : Writer) data
      = if 0 < p then (.ok p, ⟨[], data.take p⟩)
        else (.error .wouldBlock, ⟨[], []⟩) := by
    rw [rawWrite]
    simpa using rawWrite_accept_lt [] hp
  have hremne : data.drop p ≠ [] := by
    intro h
    have := congrArg List.length h
    simp only [List.length_drop, List.length_nil] at this
    omega
  have hmv : (WriteBuffer.new cap).must_write ⟨[.accept p], []⟩ data
      = (.ok (), ⟨[], data.take p⟩,
          ⟨cap, [BufferVec.from_slice (data.drop p) (max cap (data.drop p).length)]⟩) := by
    by_cases hpos : 0 < p
    · simp only [WriteBuffer.must_write, flush_buffer_new, hrw, if_pos hpos]
      rw [copy_to_buffer_emptyQueue cap (data.drop p) hremne]
    · have hp0 : p = 0 := by omega
      subst hp0
      simp only [WriteBuffer.must_write, flush_buffer_new, hrw, if_neg hpos]
      rw [show data.drop 0 = data from rfl, show data.take 0 = [] from rfl,
        copy_to_buffer_emptyQueue cap data (by rwa [List.drop_zero] at hremne)]
  have hsegsize : (BufferVec.from_slice (data.drop p) (max cap (data.drop p).length)).size
      = (data.drop p).length := by
    rw [BufferVec.from_slice_size, Nat.min_eq_right (Nat.le_max_right _ _)]
  have hbuffered : (⟨cap, [BufferVec.from_slice (data.drop p)
      (max cap (data.drop p).length)]⟩ : WriteBuffer).buffered = data.length - p := by
    rw [buffered_single, hsegsize, List.length_drop]
  have hfl2 : (⟨cap, [BufferVec.from_slice (data.drop p)
        (max cap (data.drop p).length)]⟩ : WriteBuffer).flush_buffer
        ⟨[.accept data.length], []⟩
      = (.ok (), ⟨[], data.drop p⟩, ⟨cap, []⟩) :=
    flush_single_seg cap _ data.length (data.drop p) hremne (Nat.le_max_right _ _)
      (by rw [List.length_drop]; omega)
  rw [hmv, hfl2]
  refine ⟨rfl, rfl, hbuffered, rfl, rfl, rfl⟩

/-- Claim C1: a successful `must_write(writer, data)` leaves every byte of
`data` either transmitted to the writer or retained in the backlog, in
original order, with no loss or duplication (the bytes the writer has
received followed by the backlog equal the old received bytes, the old
backlog, then `data`); in particular, when a fresh buffer's transport accepts
only a `p`-byte head of `data` and then would-block, `must_write` succeeds,
`buffered()` equals the unaccepted tail length, and a subsequent
`flush_buffer` on a fully-accepting transport drains `buffered()` to 0,
delivering the tail in order. -/
theorem must_write_no_byte_lost (s : WriteBuffer) (w : Writer) (data : List Nat)
    (hWF : s.WF) (hok : (s.must_write w data).1 = .ok ()) :
    ((s.must_write w data).2.1.received ++ (s.must_write w data).2.2.backlogBytes
      = w.received ++ s.backlogBytes ++ data) ∧
    (∀ (cap p : Nat) (d : List Nat), p < d.length →
      ((WriteBuffer.new cap).must_write ⟨[.accept p], []⟩ d).1 = .ok () ∧
      ((WriteBuffer.new cap).must_write ⟨[.accept p], []⟩ d).2.1.received = d.take p ∧
      ((WriteBuffer.new cap).must_write ⟨[.accept p], []⟩ d).2.2.buffered
        = d.length - p ∧
      ((((WriteBuffer.new cap).must_write ⟨[.accept p], []⟩ d).2.2.flush_buffer
          ⟨[.accept d.length], []⟩).1 = .ok ()) ∧
      ((((WriteBuffer.new cap).must_write ⟨[.accept p], []⟩ d).2.2.flush_buffer
          ⟨[.accept d.length], []⟩).2.2.buffered = 0) ∧
      ((((WriteBuffer.new cap).must_write ⟨[.accept p], []⟩ d).2.2.flush_buffer
          ⟨[.accept d.length], []⟩).2.1.received = d.drop p)) :=
  ⟨(must_write_no_loss s w data hWF hok).2,
    fun cap p d hp => must_write_scenario cap d p hp⟩

/-- witness for C1 at a concrete input. -/
theorem must_write_no_byte_lost_witness :
    (WriteBuffer.new 1).WF ∧
    ((WriteBuffer.new 1).must_write ⟨[], []⟩ [5]).1 = .ok () ∧
    ((((WriteBuffer.new 1).must_write ⟨[], []⟩ [5]).2.1.received ++
        ((WriteBuffer.new 1).must_write ⟨[], []⟩ [5]).2.2.backlogBytes
      = (⟨[], []⟩ : Writer).received ++ (WriteBuffer.new 1).backlogBytes ++ [5]) ∧
    (∀ (cap p : Nat) (d : List Nat), p < d.length →
      ((WriteBuffer.new cap).must_write ⟨[.accept p], []⟩ d).1 = .ok () ∧
      ((WriteBuffer.new cap).must_write ⟨[.accept p], []⟩ d).2.1.received = d.take p ∧
      ((WriteBuffer.new cap).must_write ⟨[.accept p], []⟩ d).2.2.buffered
        = d.length - p ∧
      ((((WriteBuffer.new cap).must_write ⟨[.accept p], []⟩ d).2.2.flush_buffer
          ⟨[.accept d.length], []⟩).1 = .ok ()) ∧
      ((((WriteBuffer.new cap).must_write ⟨[.accept p], []⟩ d).2.2.flush_buffer
          ⟨[.accept d.length], []⟩).2.2.buffered = 0) ∧
      ((((WriteBuffer.new cap).must_write ⟨[.accept p], []⟩ d).2.2.flush_buffer
          ⟨[.accept d.length], []⟩).2.1.received = d.drop p))) :=
  ⟨by decide, rfl, must_write_no_byte_lost (WriteBuffer.new 1) ⟨[], []⟩ [5] (by decide) rfl⟩

/-- Claim C2: when the backlog is non-empty and the initial `flush_buffer`
step fails (WouldBlock or any error), `write` propagates that exact result
and returns without sending or buffering `data` (the outcome is identical to
the flush outcome, so `data` is dropped), whereas for a WouldBlock in the
same situation `must_write` succeeds and appends `data` to the backlog. -/
theorem write_drops_data_on_flush_error (s : WriteBuffer) (w : Writer) (data : List Nat)
    (e : IOError) (w' : Writer) (s' : WriteBuffer) (hWF : s.WF) (hbuf : 0 < s.buffered)
    (hfl : s.flush_buffer w = (.error e, w', s')) :
    s.write w data = (.error e, w', s') ∧
    (e = .wouldBlock →
      s.must_write w data = (.ok (), w', s'.copy_to_buffer data) ∧
      (s'.copy_to_buffer data).backlogBytes = s'.backlogBytes ++ data) := by
  obtain ⟨fwf, -, -, -, -, -, -⟩ := flush_buffer_spec s w hWF
  rw [hfl] at fwf
  simp only at fwf
  constructor
  · simp [WriteBuffer.write, if_pos hbuf, hfl]
  · rintro rfl
    refine ⟨by simp [WriteBuffer.must_write, hfl], ?_⟩
    exact (copy_to_buffer_spec s' data fwf).2.2

/-- witness for C2 at a concrete input. -/
theorem write_drops_data_on_flush_error_witness :
    (⟨4, [BufferVec.from_slice [7] 1]⟩ : WriteBuffer).WF ∧
    0 < (⟨4, [BufferVec.from_slice [7] 1]⟩ : WriteBuffer).buffered ∧
    (⟨4, [BufferVec.from_slice [7] 1]⟩ : WriteBuffer).flush_buffer
        ⟨[.fail .wouldBlock], []⟩
      = (.error .wouldBlock, ⟨[], []⟩, ⟨4, [BufferVec.from_slice [7] 1]⟩) ∧
    ((⟨4, [BufferVec.from_slice [7] 1]⟩ : WriteBuffer).write ⟨[.fail .wouldBlock], []⟩ [9]
        = (.error .wouldBlock, ⟨[], []⟩, ⟨4, [BufferVec.from_slice [7] 1]⟩) ∧
      (IOError.wouldBlock = .wouldBlock →
        (⟨4, [BufferVec.from_slice [7] 1]⟩ : WriteBuffer).must_write
            ⟨[.fail .wouldBlock], []⟩ [9]
          = (.ok (), ⟨[], []⟩, (⟨4, [BufferVec.from_slice [7] 1]⟩ :
              WriteBuffer).copy_to_buffer [9]) ∧
        ((⟨4, [BufferVec.from_slice [7] 1]⟩ : WriteBuffer).copy_to_buffer [9]).backlogBytes
          = (⟨4, [BufferVec.from_slice [7] 1]⟩ : WriteBuffer).backlogBytes ++ [9])) :=
  ⟨by decide, by decide, rfl,
    write_drops_data_on_flush_error ⟨4, [BufferVec.from_slice [7] 1]⟩
      ⟨[.fail .wouldBlock], []⟩ [9] .wouldBlock ⟨[], []⟩
      ⟨4, [BufferVec.from_slice [7] 1]⟩ (by decide) (by decide) rfl⟩

/-- Claim C3: `flush_buffer` drains the backlog in order from the head:
a fully written head segment is rotated to empty and the loop continues with
the remaining segments (the call behaves exactly like flushing the rest with
the advanced writer); a partially written head segment is rotated by the
written count and the loop stops there — rest untouched — with result
WouldBlock; a raw-write error on the head segment stops the loop — segment
not rotated, rest untouched — with exactly that error; afterwards the
now-empty segments are removed from the head of the queue (no leading empty
segment remains); the call succeeds exactly when every segment was fully
drained (zero bytes left), in which case everything was transmitted in order
and the queue is empty; the transmitted bytes are always an in-order head of
the backlog; and on success or WouldBlock no byte is lost or duplicated. -/
theorem flush_buffer_drains_in_order (s : WriteBuffer) (w : Writer) (hWF : s.WF) :
    ((s.flush_buffer w).1 = .ok () ↔ (s.flush_buffer w).2.2.buffered = 0) ∧
    ((s.flush_buffer w).1 = .ok () →
      (s.flush_buffer w).2.1.received = w.received ++ s.backlogBytes ∧
      (s.flush_buffer w).2.2.buf = []) ∧
    (∀ b, (s.flush_buffer w).2.2.buf.head? = some b → b.len ≠ 0) ∧
    (∃ t, t ≤ s.backlogBytes.length ∧
      (s.flush_buffer w).2.1.received = w.received ++ s.backlogBytes.take t) ∧
    (((s.flush_buffer w).1 = .ok () ∨ (s.flush_buffer w).1 = .error .wouldBlock) →
      (s.flush_buffer w).2.1.received ++ (s.flush_buffer w).2.2.backlogBytes
        = w.received ++ s.backlogBytes) ∧
    (∀ seg rest n w', s.buf = seg :: rest →
      rawWrite w seg.read = (.ok n, w') → n = seg.read.length →
      s.flush_buffer w = ({ s with buf := rest } : WriteBuffer).flush_buffer w') ∧
    (∀ seg rest n w', s.buf = seg :: rest →
      rawWrite w seg.read = (.ok n, w') → n ≠ seg.read.length →
      s.flush_buffer w = (.error .wouldBlock, w',
        ⟨s.cap, (seg.rotate_left n :: rest).dropWhile (fun b => b.len == 0)⟩)) ∧
    (∀ seg rest e w', s.buf = seg :: rest →
      rawWrite w seg.read = (.error e, w') →
      s.flush_buffer w = (.error e, w',
        ⟨s.cap, (seg :: rest).dropWhile (fun b => b.len == 0)⟩)) := by
  obtain ⟨-, -, ⟨t, hpref⟩, hiff, hokk, hhead, hnoloss⟩ := flush_buffer_spec s w hWF
  have hfb1 : s.flush_buffer w
      = ((flushLoopGo w s.buf).1, (flushLoopGo w s.buf).2.1,
          ⟨s.cap, (flushLoopGo w s.buf).2.2.dropWhile (fun b => b.len == 0)⟩) := rfl
  refine ⟨hiff, hokk, hhead, ⟨min t s.backlogBytes.length, Nat.min_le_right _ _, ?_⟩,
    hnoloss, ?_, ?_, ?_⟩
  · rw [hpref, ← List.take_length (l := s.backlogBytes), List.take_take]
    rw [List.take_length]
  · -- fully written head segment: rotate empty, continue with the rest
    intro seg rest n w' hbuf hr hfull
    subst hfull
    have hsegWF : BufferVec.WFb seg := hWF seg (by rw [hbuf]; exact List.mem_cons_self _ _)
    have hrot0 : (seg.rotate_left seg.read.length).len = 0 := by
      have hh := BufferVec.read_length hsegWF
      simp only [BufferVec.len, BufferVec.rotate_size]
      omega
    have hloop : flushLoopGo w s.buf
        = ((flushLoopGo w' rest).1, (flushLoopGo w' rest).2.1,
            seg.rotate_left seg.read.length :: (flushLoopGo w' rest).2.2) := by
      rw [hbuf]
      simp [flushLoopGo, hr]
    have hdw : (seg.rotate_left seg.read.length ::
          (flushLoopGo w' rest).2.2).dropWhile (fun b => b.len == 0)
        = ((flushLoopGo w' rest).2.2).dropWhile (fun b => b.len == 0) := by
      simp [List.dropWhile_cons, hrot0]
    have hfb2 : ({ s with buf := rest } : WriteBuffer).flush_buffer w'
        = ((flushLoopGo w' rest).1, (flushLoopGo w' rest).2.1,
            ⟨s.cap, (flushLoopGo w' rest).2.2.dropWhile (fun b => b.len == 0)⟩) := rfl
    rw [hfb1, hfb2, hloop]
    simp only [hdw]
  · -- partially written head segment: rotate by the written count and stop
    -- with WouldBlock, the remaining segments untouched
    intro seg rest n w' hbuf hr hne
    have hloop : flushLoopGo w s.buf
        = (.error .wouldBlock, w', seg.rotate_left n :: rest) := by
      rw [hbuf]
      simp [flushLoopGo, hr, hne]
    rw [hfb1, hloop]
  · -- raw-write error on the head segment: stop with that error, nothing
    -- rotated, the remaining segments untouched
    intro seg rest e w' hbuf hr
    have hloop : flushLoopGo w s.buf = (.error e, w', seg :: rest) := by
      rw [hbuf]
      simp [flushLoopGo, hr]
    rw [hfb1, hloop]

/-- witness for C3 at a concrete input. -/
theorem flush_buffer_drains_in_order_witness :
    (WriteBuffer.new 4).WF ∧
    (((WriteBuffer.new 4).flush_buffer ⟨[], []⟩).1 = .ok () ↔
      ((WriteBuffer.new 4).flush_buffer ⟨[], []⟩).2.2.buffered = 0) ∧
    (((WriteBuffer.new 4).flush_buffer ⟨[], []⟩).1 = .ok () →
      ((WriteBuffer.new 4).flush_buffer ⟨[], []⟩).2.1.received
        = (⟨[], []⟩ : Writer).received ++ (WriteBuffer.new 4).backlogBytes ∧
      ((WriteBuffer.new 4).flush_buffer ⟨[], []⟩).2.2.buf = []) ∧
    (∀ b, ((WriteBuffer.new 4).flush_buffer ⟨[], []⟩).2.2.buf.head? = some b →
      b.len ≠ 0) ∧
    (∃ t, t ≤ (WriteBuffer.new 4).backlogBytes.length ∧
      ((WriteBuffer.new 4).flush_buffer ⟨[], []⟩).2.1.received
        = (⟨[], []⟩ : Writer).received ++ (WriteBuffer.new 4).backlogBytes.take t) ∧
    ((((WriteBuffer.new 4).flush_buffer ⟨[], []⟩).1 = .ok () ∨
        ((WriteBuffer.new 4).flush_buffer ⟨[], []⟩).1 = .error .wouldBlock) →
      ((WriteBuffer.new 4).flush_buffer ⟨[], []⟩).2.1.received ++
          ((WriteBuffer.new 4).flush_buffer ⟨[], []⟩).2.2.backlogBytes
        = (⟨[], []⟩ : Writer).received ++ (WriteBuffer.new 4).backlogBytes) ∧
    (∀ seg rest n w', (WriteBuffer.new 4).buf = seg :: rest →
      rawWrite ⟨[], []⟩ seg.read = (.ok n, w') → n = seg.read.length →
      (WriteBuffer.new 4).flush_buffer ⟨[], []⟩
        = ({ WriteBuffer.new 4 with buf := rest } : WriteBuffer).flush_buffer w') ∧
    (∀ seg rest n w', (WriteBuffer.new 4).buf = seg :: rest →
      rawWrite ⟨[], []⟩ seg.read = (.ok n, w') → n ≠ seg.read.length →
      (WriteBuffer.new 4).flush_buffer ⟨[], []⟩
        = (.error .wouldBlock, w',
            ⟨(WriteBuffer.new 4).cap,
              (seg.rotate_left n :: rest).dropWhile (fun b => b.len == 0)⟩)) ∧
    (∀ seg rest e w', (WriteBuffer.new 4).buf = seg :: rest →
      rawWrite ⟨[], []⟩ seg.read = (.error e, w') →
      (WriteBuffer.new 4).flush_buffer ⟨[], []⟩
        = (.error e, w',
            ⟨(WriteBuffer.new 4).cap,
              (seg :: rest).dropWhile (fun b => b.len == 0)⟩)) :=
  ⟨by decide, flush_buffer_drains_in_order (WriteBuffer.new 4) ⟨[], []⟩ (by decide)⟩

/-- Claim C4 counterexample: the state produced by `WriteBuffer::new(4)` has a
non-empty queue whose head segment has size 0, refuting the claim that no
reachable state (including the one produced by `new`) holds a leading empty
segment. -/
theorem new_holds_leading_empty_segment :
    (WriteBuffer.new 4).buf ≠ [] ∧
    ¬ (∀ b, (WriteBuffer.new 4).buf.head? = some b → 0 < b.len) := by
  refine ⟨by decide, fun h => ?_⟩
  have := h (BufferVec.new 4) rfl
  simp [BufferVec.len, BufferVec.new] at this

/-- Claim C4 (amended): immediately after any `flush_buffer` call returns,
the backlog queue holds no leading empty segment: if the queue is non-empty
its head segment has size greater than 0.  (The freshly constructed state
from `new(cap)` instead holds exactly one empty segment, and a `write` call
that skips the flush can leave it in place.) -/
theorem flush_buffer_no_leading_empty (s : WriteBuffer) (w : Writer) (b : BufferVec)
    (h : ((s.flush_buffer w).2.2).buf.head? = some b) : 0 < b.len := by
  have hfb : (s.flush_buffer w).2.2.buf
      = (flushLoopGo w s.buf).2.2.dropWhile (fun b => b.len == 0) := rfl
  rw [hfb] at h
  exact Nat.pos_of_ne_zero (dropWhileEmpty_head h)

/-- witness for the amended C4 at a concrete input. -/
theorem flush_buffer_no_leading_empty_witness :
    ((⟨4, [BufferVec.from_slice [7] 1]⟩ : WriteBuffer).flush_buffer
        ⟨[.fail .wouldBlock], []⟩).2.2.buf.head? = some (BufferVec.from_slice [7] 1) ∧
    0 < (BufferVec.from_slice [7] 1).len :=
  ⟨rfl, flush_buffer_no_leading_empty ⟨4, [BufferVec.from_slice [7] 1]⟩
    ⟨[.fail .wouldBlock], []⟩ (BufferVec.from_slice [7] 1) rfl⟩

/-- Claim C5 (code bug): for a `RingVec` of capacity 3, after pushing the 4
distinct items 1,2,3,4, the claim says `get(0)` is the 2nd pushed item (2)
and `get(idx)` is `None` for `idx >= 3`.  In the code, `start` has run past
`end` (start = 2, end = 1), so `end - start` underflows: under release
(wrapping) semantics `get(0)` returns item 4 and even `get(10)` returns an
item instead of `None`; a debug build panics on the subtraction.  The model
uses the wrapping semantics. -/
theorem ringVec_get_wrong_after_wrap :
    (((((RingVec.new 3).push 1).push 2).push 3).push 4).start = 2 ∧
    (((((RingVec.new 3).push 1).push 2).push 3).push 4).ending = 1 ∧
    (((((RingVec.new 3).push 1).push 2).push 3).push 4).get 0 = some 4 ∧
    (((((RingVec.new 3).push 1).push 2).push 3).push 4).get 0 ≠ some 2 ∧
    (((((RingVec.new 3).push 1).push 2).push 3).push 4).get 10 ≠ none := by
  refine ⟨by decide, by decide, by decide, by decide, by decide⟩

/-- Claim C6 (code bug): `ExpandVec::pop` removes the most recently pushed
chunk without decrementing `size`, so after `new`, `push` of a length-2
slice, then `pop`, `len()` returns 2 while the sum of the lengths of the
chunks actually held is 0 — the invariant `size = sum of chunk lengths` is
broken by `pop`. -/
theorem expandVec_pop_leaves_stale_size :
    ((ExpandVec.new.push [0, 0]).pop).1.len = 2 ∧
    ((((ExpandVec.new.push [0, 0]).pop).1.raw.map List.length).sum = 0) := by
  refine ⟨by decide, by decide⟩

/-- Claim C7 counterexample: `from_slice([1,2,3], 2)` does not clamp the
capacity up: it produces a buffer of capacity 2 whose filled prefix is only
`[1,2]` (length 2, not 3), refuting the claim for `from_slice` with
`c < s.len()`. -/
theorem from_slice_truncates_small_cap :
    (BufferVec.from_slice [1, 2, 3] 2).len = 2 ∧
    (BufferVec.from_slice [1, 2, 3] 2).cap = 2 ∧
    (BufferVec.from_slice [1, 2, 3] 2).read = [1, 2] := by
  refine ⟨by decide, by decide, by decide⟩

/-- Claim C7 (amended): `from_vec(s, c)` clamps the capacity up to at least
`s.len()` and pre-fills with all of `s`; `from_slice(s, c)` instead keeps
capacity exactly `c` and copies only the first `min(c, s.len())` bytes, so
the two agree (filled prefix = `s`, capacity ≥ `s.len()`) only when
`c ≥ s.len()`. -/
theorem from_vec_clamps_from_slice_truncates (s : List Nat) (c : Nat) :
    (BufferVec.from_vec s c).len = s.length ∧
    (BufferVec.from_vec s c).read = s ∧
    (BufferVec.from_vec s c).cap = max c s.length ∧
    (BufferVec.from_slice s c).cap = c ∧
    (BufferVec.from_slice s c).len = min c s.length ∧
    (BufferVec.from_slice s c).read = s.take (min c s.length) := by
  refine ⟨rfl, ?_, ?_, BufferVec.from_slice_cap s c, BufferVec.from_slice_size s c,
    BufferVec.from_slice_read s c⟩
  · show ((s ++ List.replicate _ 0).take s.length) = s
    exact List.take_left s _
  · show (s ++ List.replicate ((if c < s.length then s.length else c) - s.length) 0).length
      = max c s.length
    rw [List.length_append, List.length_replicate]
    by_cases h : c < s.length
    · rw [if_pos h]
      omega
    · rw [if_neg h]
      omega

/-- Claim C8: `copy_from` copies exactly `min(cap - len, input length)`
bytes: that is its return value, `len()` grows by that amount, the filled
region gains exactly that leading prefix of the input, the capacity is
unchanged, and the result never exceeds capacity (no failure is possible). -/
theorem copy_from_bounded_truncating (b : BufferVec) (s : List Nat) (h : b.WFb) :
    (b.copy_from s).2 = min (b.cap - b.len) s.length ∧
    (b.copy_from s).1.len = b.len + min (b.cap - b.len) s.length ∧
    (b.copy_from s).1.cap = b.cap ∧
    (b.copy_from s).1.len ≤ (b.copy_from s).1.cap ∧
    (b.copy_from s).1.read = b.read ++ s.take (min (b.cap - b.len) s.length) :=
  ⟨BufferVec.copy_from_count s, BufferVec.copy_from_size b s,
    BufferVec.copy_from_raw_length h s, BufferVec.copy_from_WF h s,
    BufferVec.copy_from_read h s⟩

/-- witness for C8 at a concrete input. -/
theorem copy_from_bounded_truncating_witness :
    (BufferVec.from_slice [1] 3).WFb ∧
    (((BufferVec.from_slice [1] 3).copy_from [8, 9, 9]).2
        = min ((BufferVec.from_slice [1] 3).cap - (BufferVec.from_slice [1] 3).len)
            [8, 9, 9].length ∧
      ((BufferVec.from_slice [1] 3).copy_from [8, 9, 9]).1.len
        = (BufferVec.from_slice [1] 3).len +
            min ((BufferVec.from_slice [1] 3).cap - (BufferVec.from_slice [1] 3).len)
              [8, 9, 9].length ∧
      ((BufferVec.from_slice [1] 3).copy_from [8, 9, 9]).1.cap
        = (BufferVec.from_slice [1] 3).cap ∧
      ((BufferVec.from_slice [1] 3).copy_from [8, 9, 9]).1.len
        ≤ ((BufferVec.from_slice [1] 3).copy_from [8, 9, 9]).1.cap ∧
      ((BufferVec.from_slice [1] 3).copy_from [8, 9, 9]).1.read
        = (BufferVec.from_slice [1] 3).read ++
            [8, 9, 9].take
              (min ((BufferVec.from_slice [1] 3).cap - (BufferVec.from_slice [1] 3).len)
                [8, 9, 9].length)) :=
  ⟨by decide, copy_from_bounded_truncating (BufferVec.from_slice [1] 3) [8, 9, 9]
    (by decide)⟩

/-- Claim C9: `must_write` never returns `IOError::WouldBlock`: a WouldBlock
from the backlog flush or from the direct write of `data` is absorbed as zero
progress (the remaining bytes are buffered instead), so the result is always
success, EOF, or Other. -/
theorem must_write_never_wouldBlock (s : WriteBuffer) (w : Writer) (data : List Nat) :
    (s.must_write w data).1 ≠ .error .wouldBlock := by
  rcases hfl : s.flush_buffer w with ⟨fres, w1, s1⟩
  cases fres with
  | ok u =>
    cases u
    rcases hrw : rawWrite w1 data with ⟨rres, w2⟩
    cases rres with
    | ok written => simp [WriteBuffer.must_write, hfl, hrw]
    | error e => cases e <;> simp [WriteBuffer.must_write, hfl, hrw]
  | error e => cases e <;> simp [WriteBuffer.must_write, hfl]

/-- Claim C10: `src.move_to(dst)` transfers exactly
`min(dst.cap() - dst.len(), src.len())` bytes (appended, in order, to `dst`'s
filled region) and then unconditionally clears `src` to `len() == 0`, so any
excess bytes are discarded rather than retained in `src` or reported. -/
theorem move_to_truncates_and_clears (src dst : BufferVec)
    (hsrc : src.WFb) (hdst : dst.WFb) :
    (src.move_to dst).1.len = 0 ∧
    (src.move_to dst).2.read
      = dst.read ++ src.read.take (min (dst.cap - dst.len) src.len) ∧
    (src.move_to dst).2.len = dst.len + min (dst.cap - dst.len) src.len ∧
    (src.move_to dst).2.cap = dst.cap := by
  have hlen : src.read.length = src.len := BufferVec.read_length hsrc
  refine ⟨rfl, ?_, ?_, BufferVec.copy_from_raw_length hdst src.read⟩
  · have h1 := BufferVec.copy_from_read hdst src.read
    rw [hlen] at h1
    exact h1
  · have h2 := BufferVec.copy_from_size dst src.read
    rw [hlen] at h2
    exact h2

/-- witness for C10 at a concrete input. -/
theorem move_to_truncates_and_clears_witness :
    (BufferVec.from_slice [1, 2, 3] 3).WFb ∧
    (BufferVec.from_slice [4] 2).WFb ∧
    (((BufferVec.from_slice [1, 2, 3] 3).move_to (BufferVec.from_slice [4] 2)).1.len = 0 ∧
      ((BufferVec.from_slice [1, 2, 3] 3).move_to (BufferVec.from_slice [4] 2)).2.read
        = (BufferVec.from_slice [4] 2).read ++
            (BufferVec.from_slice [1, 2, 3] 3).read.take
              (min ((BufferVec.from_slice [4] 2).cap - (BufferVec.from_slice [4] 2).len)
                (BufferVec.from_slice [1, 2, 3] 3).len) ∧
      ((BufferVec.from_slice [1, 2, 3] 3).move_to (BufferVec.from_slice [4] 2)).2.len
        = (BufferVec.from_slice [4] 2).len +
            min ((BufferVec.from_slice [4] 2).cap - (BufferVec.from_slice [4] 2).len)
              (BufferVec.from_slice [1, 2, 3] 3).len ∧
      ((BufferVec.from_slice [1, 2, 3] 3).move_to (BufferVec.from_slice [4] 2)).2.cap
        = (BufferVec.from_slice [4] 2).cap) :=
  ⟨by decide, by decide,
    move_to_truncates_and_clears (BufferVec.from_slice [1, 2, 3] 3)
      (BufferVec.from_slice [4] 2) (by decide) (by decide)⟩

end BytesRs
